import Mathlib

/-!
Verification of the `BinarySearchTree<T>` container of `bst.h`,
shallowly embedded at element type `T = Int` (the comparisons in the
source use only `operator<`, which at `Int` is the usual strict order).

The C++ tree is a pointer structure with owning child links and
non-owning parent links; a functional binary tree carries exactly the
same information (the parent of a node is determined by the position of
the node in the tree), so the embedding uses an inductive tree.  Nodes
are rebuilt along the search path where the source mutates in place;
the comparisons performed are the same ones the source performs.  The
cached `tree_size_` field of the container is threaded explicitly as a
`Nat` argument where an operation updates it.  A second tree type that
additionally tags every node with an allocation identity is introduced
further down to reason about iterator validity across `erase`.
-/

namespace BST

/-- A node of `BinarySearchTree<int>`: `data`, owning `left`/`right`
subtrees.  The `parent` back-pointer of the source is recoverable from
the position of the node and is therefore not stored. -/
inductive Tree where
  | nil : Tree
  | node (left : Tree) (data : Int) (right : Tree) : Tree
deriving DecidableEq, Repr

/-- `in_order_helper` (bst.h:464-469): left subtree, self, right subtree,
collected into the visit list of the traversal callback. -/
def inOrder : Tree → List Int
  | .nil => []
  | .node l x r => inOrder l ++ x :: inOrder r

/-- `pre_order_helper` (bst.h:471-476): self, left, right. -/
def preOrder : Tree → List Int
  | .nil => []
  | .node l x r => x :: (preOrder l ++ preOrder r)

/-- `post_order_helper` (bst.h:478-483): left, right, self. -/
def postOrder : Tree → List Int
  | .nil => []
  | .node l x r => postOrder l ++ postOrder r ++ [x]

/-- Number of nodes of the tree. -/
def sizeT : Tree → Nat
  | .nil => 0
  | .node l _ r => sizeT l + 1 + sizeT r

/-- `find_node` (bst.h:401-412): descend comparing with `<` alone; the
result is the `data` of the found node (`none` models the `nullptr`
return). -/
def find_node : Tree → Int → Option Int
  | .nil, _ => none
  | .node l x r, k =>
    if k < x then find_node l k
    else if x < k then find_node r k
    else some x

/-- `contains` (bst.h:337-339): `find_node(root_, key) != nullptr`. -/
def contains (t : Tree) (k : Int) : Bool := (find_node t k).isSome

/-- `find` (bst.h:329-335): wraps the `find_node` result in an iterator;
`none` is the end iterator, `some v` an iterator whose dereference is `v`. -/
def find (t : Tree) (k : Int) : Option Int := find_node t k

/-- `find_min` (bst.h:415-421): walk `left` links; `none` models the
`nullptr` result on the empty subtree. -/
def findMinVal : Tree → Option Int
  | .nil => none
  | .node .nil x _ => some x
  | .node (.node a y b) _ _ => findMinVal (.node a y b)

/-- `find_max` (bst.h:424-430): walk `right` links. -/
def findMaxVal : Tree → Option Int
  | .nil => none
  | .node _ x .nil => some x
  | .node _ _ (.node a y b) => findMaxVal (.node a y b)

/-- `emplace` (bst.h:239-274): descend comparing the candidate with `<`
in both directions; attach at the empty slot reached, or stop without
mutation at a node that is neither `<` nor `>`.  Result: the new tree,
the `data` of the node the returned iterator points at, and the
`inserted` flag.  `tree_size_` is incremented exactly when the flag is
`true` (bst.h:246, 272). -/
def emplace : Tree → Int → Tree × Int × Bool
  | .nil, v => (.node .nil v .nil, v, true)
  | .node l x r, v =>
    if v < x then
      let p := emplace l v
      (.node p.1 x r, p.2)
    else if x < v then
      let p := emplace r v
      (.node l x p.1, p.2)
    else
      (.node l x r, x, false)

/-- `insert` (bst.h:229-236): delegates to `emplace` and keeps the
iterator of the pair. -/
def insert (t : Tree) (v : Int) : Tree × Int :=
  let p := emplace t v
  (p.1, p.2.1)

/-- The initializer-list constructor (bst.h:176-180): `insert` each
value in order, starting from the empty tree. -/
def insertList (vs : List Int) : Tree :=
  vs.foldl (fun t v => (insert t v).1) .nil

/-- `base_iterator::successor` (bst.h:63-78) seen from the node holding
`k`: if the node has a right subtree, its leftmost value; otherwise the
climb over parent links stops at the nearest ancestor whose left
subtree contains the node.  On the descent to the node that ancestor is
the last node left-branched away from, so the embedding accumulates it
(`acc`); `none` is the end iterator. -/
def succGo : Tree → Int → Option Int → Option Int
  | .nil, _, _ => none
  | .node l x r, k, acc =>
    if k < x then succGo l k (some x)
    else if x < k then succGo r k acc
    else if r = .nil then acc else findMinVal r

/-- The in-order successor of the node holding `k`, as computed by
`operator++` starting at that node. -/
def succVal (t : Tree) (k : Int) : Option Int := succGo t k none

/-- `begin` (bst.h:344-346): iterator at `find_min(root_)`. -/
def beginVal (t : Tree) : Option Int := findMinVal t

/-- Iterating `operator++` from a position, with explicit fuel (the
source loop is bounded by the number of elements). -/
def iterFrom (t : Tree) : Option Int → Nat → List Int
  | _, 0 => []
  | none, _ => []
  | some k, n + 1 => k :: iterFrom t (succVal t k) n

/-- The value sequence delivered by iterating from `begin()` to `end()`. -/
def iterValues (t : Tree) : List Int :=
  iterFrom t (beginVal t) (sizeT t)

/-- `operator--` on the end iterator (bst.h:120-129): if the container
is non-empty (`tree_size_ != 0`), move to `find_max(root_)`; otherwise
stay at the sentinel. -/
def decFromEnd (t : Tree) (sz : Nat) : Option Int :=
  if sz = 0 then none else findMaxVal t

/-- `erase_node_recursive` (bst.h:444-461): re-locate `key` by
comparison; at the found node, if some child is absent promote the
other child (the moved `child` pointer) and decrement `tree_size_`; a
node with two children is left untouched there.  The second component
counts the decrements performed. -/
def erase_node_recursive : Tree → Int → Tree × Nat
  | .nil, _ => (.nil, 0)
  | .node l x r, key =>
    if key < x then
      let p := erase_node_recursive l key
      (.node p.1 x r, p.2)
    else if x < key then
      let p := erase_node_recursive r key
      (.node l x p.1, p.2)
    else
      if l = .nil then (r, 1)
      else if r = .nil then (l, 1)
      else (.node l x r, 0)

/-- The structural part of `erase` (bst.h:286-315) at the node holding
`key` (reached by the same comparisons `find_node` performs).  The
second component is the net decrement of `tree_size_` produced by the
case taken: the leaf and one-child cases perform only the final
`tree_size_--` (bst.h:317), hence `1`; the two-child case overwrites
the node's data with the minimum of the right subtree, erases that
minimum from the right subtree, and its `tree_size_++` (bst.h:314)
cancels against the final decrement, leaving the decrements of
`erase_node_recursive`.  (At `T = Int` the moved-from
`successor->data` (bst.h:308,311) still holds the successor value.) -/
def eraseGo : Tree → Int → Tree × Nat
  | .nil, _ => (.nil, 0)
  | .node l x r, key =>
    if key < x then
      let p := eraseGo l key
      (.node p.1 x r, p.2)
    else if x < key then
      let p := eraseGo r key
      (.node l x p.1, p.2)
    else
      if l = .nil ∧ r = .nil then (.nil, 1)
      else if l = .nil ∨ r = .nil then (if l = .nil then r else l, 1)
      else
        let s := (findMinVal r).getD 0
        let p := erase_node_recursive r s
        (.node l s p.1, p.2)

/-- `erase` (bst.h:277-319): if `find_node` fails return the end
iterator with nothing changed; otherwise remember the in-order
successor of the found node (bst.h:283-284, computed before any
mutation), apply the structural cases, and update `tree_size_`.  The
returned `Option Int` is the dereference of the returned iterator
(`none` = end). -/
def erase (t : Tree) (sz : Nat) (key : Int) : Tree × Nat × Option Int :=
  if (find_node t key).isSome then
    let ret := succVal t key
    let p := eraseGo t key
    (p.1, sz - p.2, ret)
  else
    (t, sz, none)

/-- `clear` (bst.h:321-324): release the root, zero the size. -/
def clear : Tree × Nat := (.nil, 0)

/-- `All p t`: `p` holds on every value of the tree. -/
def AllT (p : Int → Prop) : Tree → Prop
  | .nil => True
  | .node l x r => AllT p l ∧ p x ∧ AllT p r

/-- The ordering invariant of the container (spec section 3): every
value in a left subtree is strictly below the node value, every value
in a right subtree strictly above. -/
def IsBST : Tree → Prop
  | .nil => True
  | .node l x r => IsBST l ∧ IsBST r ∧ AllT (fun y => y < x) l ∧ AllT (fun y => x < y) r

instance instDecidableAllT (p : Int → Prop) [DecidablePred p] :
    (t : Tree) → Decidable (AllT p t)
  | .nil => .isTrue trivial
  | .node l x r =>
    letI := instDecidableAllT p l
    letI := instDecidableAllT p r
    inferInstanceAs (Decidable (AllT p l ∧ p x ∧ AllT p r))

instance instDecidableIsBST : (t : Tree) → Decidable (IsBST t)
  | .nil => .isTrue trivial
  | .node l x r =>
    letI := instDecidableIsBST l
    letI := instDecidableIsBST r
    inferInstanceAs
      (Decidable (IsBST l ∧ IsBST r ∧ AllT (fun y => y < x) l ∧ AllT (fun y => x < y) r))

/-- The element following the first occurrence of `k` in a list
(specification device used to state what `operator++` computes). -/
def nextInList : List Int → Int → Option Int
  | [], _ => none
  | [_], _ => none
  | a :: b :: rest, k => if a = k then some b else nextInList (b :: rest) k

/-- `std::vector::operator[]` at a C++ `int` index.  Out-of-range access
is undefined behaviour in the source; the embedding returns a junk `0`
there, and every claim about the builders keeps the indices in range. -/
def getI (l : List Int) (i : Int) : Int :=
  if 0 ≤ i then l.getD i.toNat 0 else 0

/-- The `inorder_map` of the traversal constructors (bst.h:187-190,
202-205): values are mapped to their index in the in-order sequence,
written in ascending index order, so a duplicated value keeps its last
index.  `none` models a key `.at` would throw on. -/
def inorderMap : List Int → Int → Option Int
  | [], _ => none
  | a :: rest, v =>
    match inorderMap rest v with
    | some j => some (j + 1)
    | none => if a = v then some 0 else none

/-- `build_from_pre_in` (bst.h:486-502): the next unconsumed pre-order
element is the root of the subtree covering in-order index range
`[inS, inE]`; its in-order index splits the range for the two recursive
calls, which consume `pre` left to right (the by-reference `pre_idx` is
threaded through the results).  The C++ recursion has no fuel; the
`Nat` fuel only makes the recursion structural and is chosen large
enough at every call site. -/
def build_from_pre_in (pre : List Int) (mp : Int → Option Int) :
    Nat → Int → Int → Int → Tree × Int
  | 0, preIdx, _, _ => (.nil, preIdx)
  | fuel + 1, preIdx, inS, inE =>
    if inS > inE then (.nil, preIdx)
    else
      let rootVal := getI pre preIdx
      let inRootIdx := (mp rootVal).getD 0
      let pl := build_from_pre_in pre mp fuel (preIdx + 1) inS (inRootIdx - 1)
      let pr := build_from_pre_in pre mp fuel pl.2 (inRootIdx + 1) inE
      (.node pl.1 rootVal pr.1, pr.2)

/-- `build_from_post_in` (bst.h:505-522): consumes `post` from the end
backwards, building the right subtree before the left one. -/
def build_from_post_in (post : List Int) (mp : Int → Option Int) :
    Nat → Int → Int → Int → Tree × Int
  | 0, postIdx, _, _ => (.nil, postIdx)
  | fuel + 1, postIdx, inS, inE =>
    if inS > inE then (.nil, postIdx)
    else
      let rootVal := getI post postIdx
      let inRootIdx := (mp rootVal).getD 0
      let pr := build_from_post_in post mp fuel (postIdx - 1) (inRootIdx + 1) inE
      let pl := build_from_post_in post mp fuel pr.2 inS (inRootIdx - 1)
      (.node pl.1 rootVal pr.1, pl.2)

/-- The `(preorder, inorder)` constructor (bst.h:183-194): empty
pre-order input or a length mismatch returns the default-constructed
empty tree; otherwise the tree is built and `tree_size_` is set to the
input length. -/
def mkFromPreIn (preorder inorder : List Int) : Tree × Nat :=
  if preorder.isEmpty ∨ preorder.length ≠ inorder.length then (.nil, 0)
  else
    ((build_from_pre_in preorder (inorderMap inorder) (preorder.length + 1)
        0 0 ((inorder.length : Int) - 1)).1,
      preorder.length)

/-- The `(inorder, postorder, dummy)` constructor (bst.h:198-209). -/
def mkFromInPost (inorder postorder : List Int) : Tree × Nat :=
  if postorder.isEmpty ∨ postorder.length ≠ inorder.length then (.nil, 0)
  else
    ((build_from_post_in postorder (inorderMap inorder) (postorder.length + 1)
        ((postorder.length : Int) - 1) 0 ((inorder.length : Int) - 1)).1,
      postorder.length)

/-- The same tree, with every node additionally tagged by its
allocation identity (the C++ node address): this is what iterator
comparisons and iterator validity are about.  The `erase` path never
reallocates surviving nodes, so the tags travel with the nodes exactly
as the addresses do. -/
inductive ITree where
  | nil : ITree
  | node (id : Nat) (left : ITree) (data : Int) (right : ITree) : ITree
deriving DecidableEq, Repr

/-- The identities of the live nodes of the tree. -/
def idsOf : ITree → List Nat
  | .nil => []
  | .node i l _ r => idsOf l ++ i :: idsOf r

/-- `find_min` on the identity-tagged tree, returning the node identity. -/
def findMinId : ITree → Option Nat
  | .nil => none
  | .node i .nil _ _ => some i
  | .node _ (.node j a y b) _ _ => findMinId (.node j a y b)

/-- `find_min` on the identity-tagged tree, returning the node value. -/
def findMinValI : ITree → Option Int
  | .nil => none
  | .node _ .nil x _ => some x
  | .node _ (.node j a y b) _ _ => findMinValI (.node j a y b)

/-- `find_node` on the identity-tagged tree, returning the identity of
the found node. -/
def find_nodeI : ITree → Int → Option Nat
  | .nil, _ => none
  | .node i l x r, k =>
    if k < x then find_nodeI l k
    else if x < k then find_nodeI r k
    else some i

/-- `base_iterator::successor` on the identity-tagged tree, from the
node holding `k`: the identity of the node the iterator lands on. -/
def succIdGo : ITree → Int → Option Nat → Option Nat
  | .nil, _, _ => none
  | .node i l x r, k, acc =>
    if k < x then succIdGo l k (some i)
    else if x < k then succIdGo r k acc
    else if r = .nil then acc else findMinId r

/-- `erase_node_recursive` on the identity-tagged tree: promoting a
child keeps that child's node (and identity); the node found is
destroyed. -/
def erase_node_recursiveI : ITree → Int → ITree × Nat
  | .nil, _ => (.nil, 0)
  | .node i l x r, key =>
    if key < x then
      let p := erase_node_recursiveI l key
      (.node i p.1 x r, p.2)
    else if x < key then
      let p := erase_node_recursiveI r key
      (.node i l x p.1, p.2)
    else
      if l = .nil then (r, 1)
      else if r = .nil then (l, 1)
      else (.node i l x r, 0)

/-- The structural cases of `erase` on the identity-tagged tree.  In
the two-child case (bst.h:300-315) the erased node keeps its identity —
only its `data` is overwritten with the successor's value — and the
in-order successor node is the one `erase_node_recursive` destroys. -/
def eraseGoI : ITree → Int → ITree
  | .nil, _ => .nil
  | .node i l x r, key =>
    if key < x then .node i (eraseGoI l key) x r
    else if x < key then .node i l x (eraseGoI r key)
    else
      if l = .nil ∧ r = .nil then .nil
      else if l = .nil ∨ r = .nil then (if l = .nil then r else l)
      else
        let s := (findMinValI r).getD 0
        .node i l s (erase_node_recursiveI r s).1

/-- `erase` on the identity-tagged tree: the returned iterator is the
one computed by `++` from the found node before any mutation
(bst.h:283-284); its state is the identity of the node it points at
(`none` = end sentinel). -/
def eraseI (t : ITree) (key : Int) : ITree × Option Nat :=
  if (find_nodeI t key).isSome then
    let ret := succIdGo t key none
    (eraseGoI t key, ret)
  else
    (t, none)

/-! ### Basic facts about the traversals and the invariant -/

theorem inOrder_eq_nil_iff : ∀ t : Tree, inOrder t = [] ↔ t = .nil
  | .nil => by simp [inOrder]
  | .node l x r => by simp [inOrder]

theorem length_inOrder : ∀ t : Tree, (inOrder t).length = sizeT t
  | .nil => rfl
  | .node l x r => by
    simp [inOrder, sizeT, length_inOrder l, length_inOrder r]; omega

theorem allT_iff_forall (p : Int → Prop) :
    ∀ t : Tree, AllT p t ↔ ∀ y ∈ inOrder t, p y
  | .nil => by simp [AllT, inOrder]
  | .node l x r => by
    simp only [AllT, inOrder, List.mem_append, List.mem_cons,
      allT_iff_forall p l, allT_iff_forall p r]
    constructor
    · rintro ⟨hl, hx, hr⟩ y hy
      rcases hy with hy | rfl | hy
      · exact hl y hy
      · exact hx
      · exact hr y hy
    · intro h
      exact ⟨fun y hy => h y (Or.inl hy), h x (Or.inr (Or.inl rfl)),
        fun y hy => h y (Or.inr (Or.inr hy))⟩

theorem isBST_iff_pairwise :
    ∀ t : Tree, IsBST t ↔ (inOrder t).Pairwise (· < ·)
  | .nil => by simp [IsBST, inOrder]
  | .node l x r => by
    simp only [IsBST, inOrder, List.pairwise_append, List.pairwise_cons,
      allT_iff_forall, isBST_iff_pairwise l, isBST_iff_pairwise r]
    constructor
    · rintro ⟨hl, hr, hlx, hxr⟩
      refine ⟨hl, ⟨hxr, hr⟩, ?_⟩
      intro a ha b hb
      rcases List.mem_cons.mp hb with rfl | hb
      · exact hlx a ha
      · exact lt_trans (hlx a ha) (hxr b hb)
    · rintro ⟨hl, ⟨hxr, hr⟩, hcross⟩
      exact ⟨hl, hr, fun y hy => hcross y hy x (List.mem_cons_self x _), hxr⟩

theorem nodup_inOrder {t : Tree} (h : IsBST t) : (inOrder t).Nodup :=
  ((isBST_iff_pairwise t).mp h).nodup

theorem findMinVal_eq_head : ∀ t : Tree, findMinVal t = (inOrder t).head?
  | .nil => rfl
  | .node .nil x r => by simp [findMinVal, inOrder]
  | .node (.node a y b) x r => by
    rw [findMinVal, findMinVal_eq_head (.node a y b)]
    show _ = (inOrder (Tree.node a y b) ++ x :: inOrder r).head?
    rw [List.head?_append_of_ne_nil _ (by simp [inOrder])]

theorem findMaxVal_eq_getLast : ∀ t : Tree, findMaxVal t = (inOrder t).getLast?
  | .nil => rfl
  | .node l x .nil => by
    rw [findMaxVal, inOrder, List.getLast?_append_cons]
    rfl
  | .node l x (.node a y b) => by
    rw [findMaxVal, findMaxVal_eq_getLast (.node a y b)]
    show _ = (inOrder l ++ x :: inOrder (Tree.node a y b)).getLast?
    rw [List.getLast?_append_cons]
    cases hmem : inOrder (Tree.node a y b) with
    | nil => exact absurd hmem (by simp [inOrder])
    | cons c cs => rw [List.getLast?_cons_cons]

/-! ### Facts about `emplace` -/

theorem emplace_lt {l r : Tree} {x v : Int} (h : v < x) :
    emplace (.node l x r) v = (.node (emplace l v).1 x r, (emplace l v).2) := by
  simp [emplace, h]

theorem emplace_gt {l r : Tree} {x v : Int} (h : x < v) :
    emplace (.node l x r) v = (.node l x (emplace r v).1, (emplace r v).2) := by
  simp [emplace, asymm h, h]

theorem emplace_found {l r : Tree} {x v : Int} (h1 : ¬ v < x) (h2 : ¬ x < v) :
    emplace (.node l x r) v = (.node l x r, x, false) := by
  simp [emplace, h1, h2]

theorem emplace_allT {p : Int → Prop} {v : Int} (hv : p v) :
    ∀ {t : Tree}, AllT p t → AllT p (emplace t v).1
  | .nil, _ => ⟨trivial, hv, trivial⟩
  | .node l x r, ht => by
    rcases ht with ⟨hl, hx, hr⟩
    rcases lt_trichotomy v x with h | h | h
    · rw [emplace_lt h]
      exact ⟨emplace_allT hv hl, hx, hr⟩
    · rw [emplace_found (by omega) (by omega)]
      exact ⟨hl, hx, hr⟩
    · rw [emplace_gt h]
      exact ⟨hl, hx, emplace_allT hv hr⟩

theorem emplace_isBST {v : Int} : ∀ {t : Tree}, IsBST t → IsBST (emplace t v).1
  | .nil, _ => ⟨trivial, trivial, trivial, trivial⟩
  | .node l x r, ht => by
    rcases ht with ⟨hl, hr, hlx, hxr⟩
    rcases lt_trichotomy v x with h | h | h
    · rw [emplace_lt h]
      exact ⟨emplace_isBST hl, hr, emplace_allT (p := fun y => y < x) h hlx, hxr⟩
    · rw [emplace_found (by omega) (by omega)]
      exact ⟨hl, hr, hlx, hxr⟩
    · rw [emplace_gt h]
      exact ⟨hl, emplace_isBST hr, hlx, emplace_allT (p := fun y => x < y) h hxr⟩

theorem mem_emplace {v : Int} :
    ∀ {t : Tree} {y : Int}, y ∈ inOrder (emplace t v).1 ↔ y = v ∨ y ∈ inOrder t
  | .nil, y => by simp [emplace, inOrder]
  | .node l x r, y => by
    rcases lt_trichotomy v x with h | h | h
    · rw [emplace_lt h]
      show y ∈ inOrder (emplace l v).1 ++ x :: inOrder r ↔ _
      simp only [List.mem_append, List.mem_cons, mem_emplace (t := l) (y := y),
        inOrder]
      tauto
    · rw [emplace_found (by omega) (by omega)]
      subst h
      simp only [inOrder, List.mem_append, List.mem_cons]
      tauto
    · rw [emplace_gt h]
      show y ∈ inOrder l ++ x :: inOrder (emplace r v).1 ↔ _
      simp only [List.mem_append, List.mem_cons, mem_emplace (t := r) (y := y),
        inOrder]
      tauto

theorem emplace_of_mem {v : Int} :
    ∀ {t : Tree}, IsBST t → v ∈ inOrder t → emplace t v = (t, v, false)
  | .nil, _, hmem => by simp [inOrder] at hmem
  | .node l x r, ht, hmem => by
    rcases ht with ⟨hl, hr, hlx, hxr⟩
    rcases lt_trichotomy v x with h | h | h
    · have hv : v ∈ inOrder l := by
        rcases (List.mem_append.mp hmem) with hv | hv
        · exact hv
        · rcases List.mem_cons.mp hv with rfl | hv
          · exact absurd h (lt_irrefl v)
          · exact absurd h (asymm (((allT_iff_forall _ r).mp hxr) v hv))
      rw [emplace_lt h, emplace_of_mem hl hv]
    · rw [emplace_found (by omega) (by omega), h]
    · have hv : v ∈ inOrder r := by
        rcases (List.mem_append.mp hmem) with hv | hv
        · exact absurd h (asymm (((allT_iff_forall _ l).mp hlx) v hv))
        · rcases List.mem_cons.mp hv with rfl | hv
          · exact absurd h (lt_irrefl v)
          · exact hv
      rw [emplace_gt h, emplace_of_mem hr hv]

theorem insertList_isBST_aux :
    ∀ (vs : List Int) (t : Tree), IsBST t →
      IsBST (vs.foldl (fun t v => (insert t v).1) t)
  | [], _, ht => ht
  | v :: vs, t, ht =>
    insertList_isBST_aux vs _ (emplace_isBST ht)

theorem insertList_isBST (vs : List Int) : IsBST (insertList vs) :=
  insertList_isBST_aux vs .nil trivial

theorem mem_insertList_aux :
    ∀ (vs : List Int) (t : Tree) (y : Int),
      y ∈ inOrder (vs.foldl (fun t v => (insert t v).1) t) ↔
        y ∈ vs ∨ y ∈ inOrder t
  | [], t, y => by simp
  | v :: vs, t, y => by
    show y ∈ inOrder (vs.foldl _ (emplace t v).1) ↔ _
    rw [mem_insertList_aux vs (emplace t v).1 y]
    simp only [mem_emplace, List.mem_cons]
    tauto

theorem mem_insertList (vs : List Int) (y : Int) :
    y ∈ inOrder (insertList vs) ↔ y ∈ vs := by
  rw [insertList, mem_insertList_aux vs .nil y]
  simp [inOrder]

/-! ### Facts about `find_node` -/

theorem find_node_some :
    ∀ {t : Tree} {k v : Int}, find_node t k = some v → v = k
  | .nil, k, v, h => by simp [find_node] at h
  | .node l x r, k, v, h => by
    rw [find_node] at h
    split at h
    · exact find_node_some h
    · split at h
      · exact find_node_some h
      · rename_i h1 h2
        cases h
        omega

theorem find_node_isSome_iff {k : Int} :
    ∀ {t : Tree}, IsBST t → ((find_node t k).isSome ↔ k ∈ inOrder t)
  | .nil, _ => by simp [find_node, inOrder]
  | .node l x r, ht => by
    rcases ht with ⟨hl, hr, hlx, hxr⟩
    rw [find_node]
    split
    · rename_i h1
      rw [find_node_isSome_iff hl]
      simp only [inOrder, List.mem_append, List.mem_cons]
      constructor
      · exact fun h => Or.inl h
      · rintro (h | rfl | h)
        · exact h
        · exact absurd h1 (lt_irrefl k)
        · exact absurd h1 (asymm (((allT_iff_forall _ r).mp hxr) k h))
    · split
      · rename_i h1 h2
        rw [find_node_isSome_iff hr]
        simp only [inOrder, List.mem_append, List.mem_cons]
        constructor
        · exact fun h => Or.inr (Or.inr h)
        · rintro (h | rfl | h)
          · exact absurd h2 (asymm (((allT_iff_forall _ l).mp hlx) k h))
          · exact absurd h2 (lt_irrefl k)
          · exact h
      · rename_i h1 h2
        have : k = x := by omega
        subst this
        simp [inOrder]

/-! ### Claims C5 and C10 -/

/-- C5: for every tree and every key already present, `emplace` (and
`insert`, which delegates to it) performs no mutation: the tree — and
with it the element count, whose increment is tied to the `true` flag —
is unchanged, the returned position dereferences to the existing
element, and `emplace` returns `false` as its flag. -/
theorem C5_reinsert_existing_is_noop (t : Tree) (k : Int)
    (hbst : IsBST t) (hmem : k ∈ inOrder t) :
    emplace t k = (t, k, false) ∧ insert t k = (t, k) := by
  have h := emplace_of_mem hbst hmem
  exact ⟨h, by rw [insert, h]⟩

theorem C5_witness :
    IsBST (insertList [10, 5, 15]) ∧ (5 : Int) ∈ inOrder (insertList [10, 5, 15]) ∧
      emplace (insertList [10, 5, 15]) 5 = (insertList [10, 5, 15], 5, false) ∧
      insert (insertList [10, 5, 15]) 5 = (insertList [10, 5, 15], 5) :=
  ⟨by decide, by decide,
    C5_reinsert_existing_is_noop (insertList [10, 5, 15]) 5 (by decide) (by decide)⟩

/-- C10: `contains` is true exactly when `find` is not the end iterator;
a non-end `find` result dereferences to a value neither less than nor
greater than the key; on the empty tree `contains` is `false` and
`find` is `end()`. -/
theorem C10_contains_find_agree (t : Tree) (k : Int) :
    (contains t k = true ↔ find t k ≠ none) ∧
      (∀ v, find t k = some v → ¬ v < k ∧ ¬ k < v) ∧
      contains Tree.nil k = false ∧ find Tree.nil k = none := by
  refine ⟨?_, ?_, rfl, rfl⟩
  · rw [contains, find, Option.isSome_iff_ne_none]
  · intro v hv
    have := find_node_some (t := t) (k := k) (v := v) hv
    omega

theorem C10_witness :
    (contains (insertList [2, 1, 3]) 3 = true ↔
        find (insertList [2, 1, 3]) 3 ≠ none) ∧
      (¬ (3 : Int) < 3 ∧ ¬ (3 : Int) < 3) := by
  refine ⟨(C10_contains_find_agree (insertList [2, 1, 3]) 3).1, ?_⟩
  exact (C10_contains_find_agree (insertList [2, 1, 3]) 3).2.1 3 (by decide)

/-! ### Facts about `erase` -/

theorem erase_node_recursive_lt {l r : Tree} {x key : Int} (h : key < x) :
    erase_node_recursive (.node l x r) key =
      (.node (erase_node_recursive l key).1 x r, (erase_node_recursive l key).2) := by
  simp [erase_node_recursive, h]

theorem eraseGo_lt {l r : Tree} {x key : Int} (h : key < x) :
    eraseGo (.node l x r) key =
      (.node (eraseGo l key).1 x r, (eraseGo l key).2) := by
  simp [eraseGo, h]

theorem eraseGo_gt {l r : Tree} {x key : Int} (h : x < key) :
    eraseGo (.node l x r) key =
      (.node l x (eraseGo r key).1, (eraseGo r key).2) := by
  simp [eraseGo, asymm h, h]

theorem eraseGo_found {l r : Tree} {x key : Int} (h1 : ¬ key < x) (h2 : ¬ x < key) :
    eraseGo (.node l x r) key =
      if l = .nil ∧ r = .nil then (.nil, 1)
      else if l = .nil ∨ r = .nil then (if l = .nil then r else l, 1)
      else (.node l ((findMinVal r).getD 0)
              (erase_node_recursive r ((findMinVal r).getD 0)).1,
            (erase_node_recursive r ((findMinVal r).getD 0)).2) := by
  rw [eraseGo, if_neg h1, if_neg h2]

theorem filter_ne_of_all {k : Int} {l : List Int} (h : ∀ y ∈ l, y ≠ k) :
    l.filter (fun y => y != k) = l := by
  apply List.filter_eq_self.mpr
  intro a ha
  simpa using h a ha

theorem erase_node_recursive_head :
    ∀ {r : Tree}, IsBST r → ∀ {m : Int} {rest : List Int},
      inOrder r = m :: rest →
      inOrder (erase_node_recursive r m).1 = rest ∧
        (erase_node_recursive r m).2 = 1
  | .nil, _, m, rest, h => by simp [inOrder] at h
  | .node .nil x rr, _, m, rest, h => by
    simp only [inOrder, List.nil_append] at h
    injection h with h1 h2
    subst h1
    rw [erase_node_recursive]
    simp [h2]
  | .node (.node a y b) x rr, hr, m, rest, h => by
    cases hmem : inOrder (Tree.node a y b) with
    | nil => exact absurd ((inOrder_eq_nil_iff _).mp hmem) (by simp)
    | cons c cs =>
      rw [inOrder, hmem, List.cons_append] at h
      injection h with h1 h2
      subst h1
      have hmm : c ∈ inOrder (Tree.node a y b) := by
        rw [hmem]; exact List.mem_cons_self _ _
      have hmx : c < x := ((allT_iff_forall _ _).mp hr.2.2.1) c hmm
      rw [erase_node_recursive_lt hmx]
      have ih := erase_node_recursive_head hr.1 hmem
      refine ⟨?_, ih.2⟩
      show inOrder (erase_node_recursive (Tree.node a y b) c).1 ++ x :: inOrder rr = rest
      rw [ih.1, h2]


theorem filter_cons_keep {k x : Int} (h : x ≠ k) (u : List Int) :
    (x :: u).filter (fun y => y != k) = x :: u.filter (fun y => y != k) := by
  simp [List.filter_cons, h]

theorem filter_cons_drop {k : Int} (u : List Int) :
    (k :: u).filter (fun y => y != k) = u.filter (fun y => y != k) := by
  simp [List.filter_cons]

theorem filter_split_left {k x : Int} {m u : List Int}
    (hx : x ≠ k) (hu : ∀ y ∈ u, y ≠ k) :
    (m ++ x :: u).filter (fun y => y != k) =
      m.filter (fun y => y != k) ++ x :: u := by
  rw [List.filter_append, filter_cons_keep hx, filter_ne_of_all hu]

theorem filter_split_right {k x : Int} {m u : List Int}
    (hx : x ≠ k) (hm : ∀ y ∈ m, y ≠ k) :
    (m ++ x :: u).filter (fun y => y != k) =
      m ++ x :: u.filter (fun y => y != k) := by
  rw [List.filter_append, filter_cons_keep hx, filter_ne_of_all hm]

theorem filter_drop_root {k : Int} {m u : List Int}
    (hm : ∀ y ∈ m, y ≠ k) (hu : ∀ y ∈ u, y ≠ k) :
    (m ++ k :: u).filter (fun y => y != k) = m ++ u := by
  rw [List.filter_append, filter_cons_drop,
    filter_ne_of_all hm, filter_ne_of_all hu]

theorem eraseGo_spec :
    ∀ {t : Tree}, IsBST t → ∀ {k : Int}, k ∈ inOrder t →
      inOrder (eraseGo t k).1 = (inOrder t).filter (fun y => y != k) ∧
        (eraseGo t k).2 = 1
  | .nil, _, k, hk => by simp [inOrder] at hk
  | .node l x r, ht, k, hk => by
    obtain ⟨hl, hr, hlx, hxr⟩ := ht
    have hlk : ∀ y ∈ inOrder l, y < x := (allT_iff_forall _ _).mp hlx
    have hrk : ∀ y ∈ inOrder r, x < y := (allT_iff_forall _ _).mp hxr
    have hlne : ∀ y ∈ inOrder l, y ≠ x := fun y hy => by have := hlk y hy; omega
    have hrne : ∀ y ∈ inOrder r, y ≠ x := fun y hy => by have := hrk y hy; omega
    rcases lt_trichotomy k x with hkx | hkx | hkx
    · have hknl : k ∈ inOrder l := by
        rcases List.mem_append.mp hk with hv | hv
        · exact hv
        · rcases List.mem_cons.mp hv with rfl | hv
          · exact absurd hkx (lt_irrefl k)
          · exact absurd hkx (asymm (hrk k hv))
      rw [eraseGo_lt hkx]
      have ih := eraseGo_spec hl hknl
      refine ⟨?_, ih.2⟩
      show inOrder (eraseGo l k).1 ++ x :: inOrder r = _
      rw [inOrder, filter_split_left (by omega)
        (fun y hy => by have := hrk y hy; omega), ih.1]
    · subst hkx
      rw [eraseGo_found (lt_irrefl k) (lt_irrefl k)]
      by_cases hln : l = Tree.nil
      · by_cases hrn : r = Tree.nil
        · subst hln; subst hrn
          simp only [if_pos (And.intro rfl rfl)]
          refine ⟨?_, rfl⟩
          show ([] : List Int) = _
          rw [inOrder, inOrder, List.nil_append, filter_cons_drop]
          rfl
        · rw [if_neg (by simp [hln, hrn]), if_pos (Or.inl hln), if_pos hln]
          subst hln
          refine ⟨?_, rfl⟩
          show inOrder r = _
          rw [inOrder, filter_drop_root hlne hrne]
          rw [inOrder, List.nil_append]
      · by_cases hrn : r = Tree.nil
        · rw [if_neg (by simp [hln, hrn]), if_pos (Or.inr hrn), if_neg hln]
          subst hrn
          refine ⟨?_, rfl⟩
          show inOrder l = _
          rw [inOrder, filter_drop_root hlne hrne]
          rw [inOrder, List.append_nil]
        · rw [if_neg (by simp [hln, hrn]), if_neg (by simp [hln, hrn])]
          cases hmem : inOrder r with
          | nil => exact absurd ((inOrder_eq_nil_iff _).mp hmem) hrn
          | cons c cs =>
            have hminr : findMinVal r = some c := by
              rw [findMinVal_eq_head, hmem]; rfl
            rw [hminr]
            have ih := erase_node_recursive_head hr hmem
            show (inOrder (Tree.node l (Option.getD (some c) 0)
                (erase_node_recursive r (Option.getD (some c) 0)).1) =
              List.filter (fun y => y != k) (inOrder (Tree.node l k r))) ∧
              (erase_node_recursive r (Option.getD (some c) 0)).2 = 1
            have hgd : Option.getD (some c) 0 = c := rfl
            rw [hgd]
            refine ⟨?_, ih.2⟩
            rw [inOrder, inOrder, ih.1, filter_drop_root hlne hrne, hmem]
    · have hknr : k ∈ inOrder r := by
        rcases List.mem_append.mp hk with hv | hv
        · exact absurd hkx (asymm (hlk k hv))
        · rcases List.mem_cons.mp hv with rfl | hv
          · exact absurd hkx (lt_irrefl k)
          · exact hv
      rw [eraseGo_gt hkx]
      have ih := eraseGo_spec hr hknr
      refine ⟨?_, ih.2⟩
      show inOrder l ++ x :: inOrder (eraseGo r k).1 = _
      rw [inOrder, filter_split_right (by omega)
        (fun y hy => by have := hlk y hy; omega), ih.1]

theorem length_filter_ne {k : Int} {l : List Int}
    (hnd : l.Nodup) (hk : k ∈ l) :
    (l.filter (fun y => y != k)).length = l.length - 1 := by
  obtain ⟨s, u, rfl⟩ := List.append_of_mem hk
  have hns : ∀ y ∈ s, y ≠ k := by
    intro y hy he
    subst he
    exact (List.disjoint_of_nodup_append hnd) hy (List.mem_cons_self _ _)
  have hnu : ∀ y ∈ u, y ≠ k := by
    intro y hy he
    subst he
    have h2 := (List.nodup_append.mp hnd).2.1
    exact (List.nodup_cons.mp h2).1 hy
  rw [filter_drop_root hns hnu, List.length_append, List.length_append,
    List.length_cons]
  omega

theorem erase_found_eq {t : Tree} {k : Int} (sz : Nat)
    (hf : (find_node t k).isSome) :
    erase t sz k = ((eraseGo t k).1, sz - (eraseGo t k).2, succVal t k) := by
  rw [erase, if_pos hf]

theorem erase_not_found_eq {t : Tree} {k : Int} (sz : Nat)
    (hf : ¬ (find_node t k).isSome = true) :
    erase t sz k = (t, sz, none) := by
  rw [erase, if_neg hf]

/-! ### Claims C2, C4 and C6 -/

/-- C2: the strict BST ordering invariant (hence the absence of
duplicates) holds after every mutating operation: after
`emplace`/`insert` with any value, after `erase` with any key — which
covers each of its three structural cases — and after `clear`. -/
theorem C2_invariant_preserved (t : Tree) (v k : Int) (sz : Nat)
    (hbst : IsBST t) :
    IsBST (emplace t v).1 ∧ (inOrder (emplace t v).1).Nodup ∧
      IsBST (erase t sz k).1 ∧ (inOrder (erase t sz k).1).Nodup ∧
      IsBST clear.1 := by
  have herase : IsBST (erase t sz k).1 := by
    by_cases hf : (find_node t k).isSome
    · rw [erase_found_eq sz hf]
      show IsBST (eraseGo t k).1
      apply (isBST_iff_pairwise _).mpr
      rw [(eraseGo_spec hbst ((find_node_isSome_iff hbst).mp hf)).1]
      exact ((isBST_iff_pairwise t).mp hbst).sublist (List.filter_sublist _)
    · rw [erase_not_found_eq sz hf]
      exact hbst
  exact ⟨emplace_isBST hbst, nodup_inOrder (emplace_isBST hbst), herase,
    nodup_inOrder herase, trivial⟩

theorem C2_witness :
    IsBST (insertList [50, 30, 70, 20, 40]) ∧
      IsBST (emplace (insertList [50, 30, 70, 20, 40]) 25).1 ∧
      IsBST (erase (insertList [50, 30, 70, 20, 40]) 5 30).1 := by
  have h := C2_invariant_preserved (insertList [50, 30, 70, 20, 40]) 25 30 5
    (by decide)
  exact ⟨by decide, h.1, h.2.2.1⟩

/-- C4: erasing a present key decrements the cached element count by
exactly one, whichever structural case runs; it removes exactly the
element equal to the key and retains every other element (and the
resulting tree indeed has one element fewer). -/
theorem C4_erase_removes_exactly_one (t : Tree) (k : Int)
    (hbst : IsBST t) (hk : k ∈ inOrder t) :
    (erase t (inOrder t).length k).2.1 = (inOrder t).length - 1 ∧
      inOrder (erase t (inOrder t).length k).1 =
        (inOrder t).filter (fun y => y != k) ∧
      (∀ y, y ∈ inOrder (erase t (inOrder t).length k).1 ↔
        y ∈ inOrder t ∧ y ≠ k) ∧
      (inOrder (erase t (inOrder t).length k).1).length =
        (inOrder t).length - 1 := by
  have hf : (find_node t k).isSome := (find_node_isSome_iff hbst).mpr hk
  have hspec := eraseGo_spec hbst hk
  rw [erase_found_eq _ hf]
  refine ⟨?_, hspec.1, ?_, ?_⟩
  · show (inOrder t).length - (eraseGo t k).2 = _
    rw [hspec.2]
  · intro y
    show y ∈ inOrder (eraseGo t k).1 ↔ _
    rw [hspec.1, List.mem_filter]
    simp [bne_iff_ne]
  · show (inOrder (eraseGo t k).1).length = _
    rw [hspec.1]
    exact length_filter_ne (nodup_inOrder hbst) hk

theorem C4_witness :
    IsBST (insertList [50, 30, 70, 20, 40, 60, 80, 35, 45]) ∧
      (50 : Int) ∈ inOrder (insertList [50, 30, 70, 20, 40, 60, 80, 35, 45]) ∧
      (erase (insertList [50, 30, 70, 20, 40, 60, 80, 35, 45]) 9 50).2.1 = 8 := by
  refine ⟨by decide, by decide, ?_⟩
  have h := (C4_erase_removes_exactly_one
    (insertList [50, 30, 70, 20, 40, 60, 80, 35, 45]) 50 (by decide) (by decide)).1
  have hlen : (inOrder (insertList [50, 30, 70, 20, 40, 60, 80, 35, 45])).length = 9 :=
    by decide
  rw [hlen] at h
  exact h

/-- C6: erasing an absent key returns the end iterator and leaves both
the tree and the cached element count entirely unchanged; the absent
case only selects the silent early-return branch, no error is raised. -/
theorem C6_erase_absent_is_noop (t : Tree) (sz : Nat) (k : Int)
    (hbst : IsBST t) (hk : k ∉ inOrder t) :
    erase t sz k = (t, sz, none) :=
  erase_not_found_eq sz (fun h => hk ((find_node_isSome_iff hbst).mp h))

theorem C6_witness :
    IsBST (insertList [50, 30, 70]) ∧
      (999 : Int) ∉ inOrder (insertList [50, 30, 70]) ∧
      erase (insertList [50, 30, 70]) 3 999 = (insertList [50, 30, 70], 3, none) :=
  ⟨by decide, by decide,
    C6_erase_absent_is_noop (insertList [50, 30, 70]) 3 999 (by decide) (by decide)⟩

/-! ### Claims C3 and C9 -/

/-- C3: refuted on the code.  On the tree `{10, 5, 20}` (node
identities 0, 1, 2), `erase(10)` takes the two-child branch: the
in-order successor position is computed before mutation as the node
with identity 2 (value 20), that node's value is moved into node 0 and
the node itself is destroyed by `erase_node_recursive` — yet the
iterator kept from before the mutation, still referring to identity 2,
is returned.  The returned iterator names a node that no longer exists
in the tree (a dangling pointer in the C++ original), not the node now
occupying the successor position (identity 0, value 20). -/
theorem C3_two_child_erase_returns_destroyed_node :
    eraseI (.node 0 (.node 1 .nil 5 .nil) 10 (.node 2 .nil 20 .nil)) 10 =
      (.node 0 (.node 1 .nil 5 .nil) 20 .nil, some 2) ∧
      2 ∉ idsOf (eraseI (.node 0 (.node 1 .nil 5 .nil) 10
        (.node 2 .nil 20 .nil)) 10).1 ∧
      idsOf (eraseI (.node 0 (.node 1 .nil 5 .nil) 10
        (.node 2 .nil 20 .nil)) 10).1 = [1, 0] := by
  decide

/-- C9: an empty input pair, or one whose lengths differ, makes both
traversal-pair constructors return silently with the
default-constructed state: an empty tree of size 0.  No error is
raised. -/
theorem C9_degenerate_builder_input_gives_empty (a b : List Int)
    (h : (a = [] ∧ b = []) ∨ a.length ≠ b.length) :
    mkFromPreIn a b = (.nil, 0) ∧ mkFromInPost a b = (.nil, 0) := by
  rcases h with ⟨rfl, rfl⟩ | h
  · exact ⟨rfl, rfl⟩
  · constructor
    · rw [mkFromPreIn, if_pos (Or.inr h)]
    · rw [mkFromInPost, if_pos (Or.inr (fun he => h he.symm))]

theorem C9_witness :
    mkFromPreIn [1] [] = (.nil, 0) ∧ mkFromInPost [1] [] = (.nil, 0) :=
  C9_degenerate_builder_input_gives_empty [1] [] (Or.inr (by decide))

/-! ### The iterator: successor steps and iteration -/

theorem nextInList_some_append {k v : Int} (u : List Int) :
    ∀ {m : List Int}, k ∈ m → nextInList m k = some v →
      nextInList (m ++ u) k = some v
  | [], hk, _ => by simp at hk
  | [a], _, hn => by simp [nextInList] at hn
  | a :: b :: rest, hk, hn => by
    rw [nextInList] at hn
    rw [List.cons_append, List.cons_append, nextInList, ← List.cons_append]
    split at hn
    · rw [if_pos (by assumption)]
      exact hn
    · rw [if_neg (by assumption)]
      have hk2 : k ∈ b :: rest := by
        rcases List.mem_cons.mp hk with rfl | hk2
        · exact absurd rfl (by assumption)
        · exact hk2
      exact nextInList_some_append u hk2 hn

theorem nextInList_none_append {k : Int} (u : List Int) :
    ∀ {m : List Int}, k ∈ m → nextInList m k = none →
      nextInList (m ++ u) k = u.head?
  | [], hk, _ => by simp at hk
  | [a], hk, _ => by
    have hka : k = a := by simpa using hk
    have hak : a = k := hka.symm
    subst hak
    cases u with
    | nil => rfl
    | cons c cs => simp [nextInList]
  | a :: b :: rest, hk, hn => by
    rw [nextInList] at hn
    split at hn
    · exact absurd hn (by simp)
    · rw [List.cons_append, List.cons_append, nextInList, ← List.cons_append,
        if_neg (by assumption)]
      have hk2 : k ∈ b :: rest := by
        rcases List.mem_cons.mp hk with rfl | hk2
        · exact absurd rfl (by assumption)
        · exact hk2
      exact nextInList_none_append u hk2 hn

theorem nextInList_not_mem_append {k : Int} (u : List Int) :
    ∀ {m : List Int}, k ∉ m → nextInList (m ++ u) k = nextInList u k
  | [], _ => rfl
  | [a], hk => by
    have ha : ¬ a = k := fun he => hk (by simp [he])
    cases u with
    | nil => simp [nextInList]
    | cons c cs => simp [nextInList, ha]
  | a :: b :: rest, hk => by
    have ha : ¬ a = k := fun he => hk (by simp [he])
    rw [List.cons_append, List.cons_append, nextInList, ← List.cons_append,
      if_neg ha]
    exact nextInList_not_mem_append u (fun hm => hk (List.mem_cons_of_mem a hm))

theorem succGo_lt {l r : Tree} {x k : Int} (acc : Option Int) (h : k < x) :
    succGo (.node l x r) k acc = succGo l k (some x) := by
  simp [succGo, h]

theorem succGo_gt {l r : Tree} {x k : Int} (acc : Option Int) (h : x < k) :
    succGo (.node l x r) k acc = succGo r k acc := by
  simp [succGo, asymm h, h]

theorem succGo_found {l r : Tree} {x k : Int} (acc : Option Int)
    (h1 : ¬ k < x) (h2 : ¬ x < k) :
    succGo (.node l x r) k acc = if r = .nil then acc else findMinVal r := by
  rw [succGo, if_neg h1, if_neg h2]

theorem succGo_eq :
    ∀ {t : Tree}, IsBST t → ∀ {k : Int}, k ∈ inOrder t → ∀ (acc : Option Int),
      succGo t k acc =
        match nextInList (inOrder t) k with
        | some v => some v
        | none => acc
  | .nil, _, k, hk, _ => by simp [inOrder] at hk
  | .node l x r, ht, k, hk, acc => by
    obtain ⟨hl, hr, hlx, hxr⟩ := ht
    have hlk : ∀ y ∈ inOrder l, y < x := (allT_iff_forall _ _).mp hlx
    have hrk : ∀ y ∈ inOrder r, x < y := (allT_iff_forall _ _).mp hxr
    rcases lt_trichotomy k x with hkx | hkx | hkx
    · have hknl : k ∈ inOrder l := by
        rcases List.mem_append.mp hk with hv | hv
        · exact hv
        · rcases List.mem_cons.mp hv with rfl | hv
          · exact absurd hkx (lt_irrefl k)
          · exact absurd hkx (asymm (hrk k hv))
      rw [succGo_lt acc hkx, succGo_eq hl hknl (some x), inOrder]
      cases hnext : nextInList (inOrder l) k with
      | some v => rw [nextInList_some_append (x :: inOrder r) hknl hnext]
      | none =>
        rw [nextInList_none_append (x :: inOrder r) hknl hnext]
        rfl
    · subst hkx
      have hknotl : k ∉ inOrder l := fun hm => by have := hlk k hm; omega
      rw [succGo_found acc (lt_irrefl k) (lt_irrefl k), inOrder,
        nextInList_not_mem_append _ hknotl]
      by_cases hrn : r = Tree.nil
      · subst hrn
        rw [if_pos rfl]
        rfl
      · rw [if_neg hrn]
        cases hmem : inOrder r with
        | nil => exact absurd ((inOrder_eq_nil_iff _).mp hmem) hrn
        | cons c cs =>
          rw [findMinVal_eq_head, hmem, nextInList, if_pos rfl]
          rfl
    · have hknr : k ∈ inOrder r := by
        rcases List.mem_append.mp hk with hv | hv
        · exact absurd hkx (asymm (hlk k hv))
        · rcases List.mem_cons.mp hv with rfl | hv
          · exact absurd hkx (lt_irrefl k)
          · exact hv
      have hknotl : k ∉ inOrder l := fun hm => by have := hlk k hm; omega
      rw [succGo_gt acc hkx, succGo_eq hr hknr acc, inOrder,
        nextInList_not_mem_append _ hknotl]
      cases hmem : inOrder r with
      | nil => simp [hmem] at hknr
      | cons c cs =>
        rw [nextInList, if_neg (by omega)]

theorem succVal_next {t : Tree} (hbst : IsBST t) {k : Int}
    (hk : k ∈ inOrder t) :
    succVal t k = nextInList (inOrder t) k := by
  rw [succVal, succGo_eq hbst hk none]
  cases nextInList (inOrder t) k <;> rfl

theorem iterFrom_eq :
    ∀ (u : List Int) {t : Tree}, IsBST t → ∀ {k : Int} (s : List Int),
      inOrder t = s ++ k :: u → iterFrom t (some k) (u.length + 1) = k :: u
  | [], t, _, k, s, h => by simp [iterFrom]
  | v :: rest, t, hbst, k, s, h => by
    have hkmem : k ∈ inOrder t := by
      rw [h]
      exact List.mem_append.mpr (Or.inr (List.mem_cons_self _ _))
    have hknots : k ∉ s := by
      have hnd := nodup_inOrder hbst
      rw [h] at hnd
      exact fun hs =>
        (List.disjoint_of_nodup_append hnd) hs (List.mem_cons_self _ _)
    have hsucc : succVal t k = some v := by
      rw [succVal_next hbst hkmem, h, nextInList_not_mem_append _ hknots,
        nextInList, if_pos rfl]
    rw [List.length_cons, iterFrom, hsucc,
      iterFrom_eq rest hbst (s ++ [k]) (by rw [h]; simp)]

theorem iterValues_eq {t : Tree} (hbst : IsBST t) : iterValues t = inOrder t := by
  rw [iterValues, beginVal, findMinVal_eq_head, ← length_inOrder]
  cases hmem : inOrder t with
  | nil => rfl
  | cons m rest =>
    rw [List.length_cons]
    show iterFrom t (some m) (rest.length + 1) = m :: rest
    exact iterFrom_eq rest hbst [] (by rw [hmem]; simp)

/-! ### Claim C1 -/

/-- C1: for every sequence of insertions (`insert`, `emplace` and the
initializer-list constructor all run the same `emplace` descent), the
in-order traversal of the resulting tree is strictly ascending, repeats
no value, and contains exactly the distinct inserted values; iterating
from `begin()` to `end()` delivers exactly that in-order sequence. -/
theorem C1_insertions_iterate_sorted (vs : List Int) :
    (inOrder (insertList vs)).Pairwise (· < ·) ∧
      (inOrder (insertList vs)).Nodup ∧
      (∀ y, y ∈ inOrder (insertList vs) ↔ y ∈ vs) ∧
      iterValues (insertList vs) = inOrder (insertList vs) := by
  have hbst := insertList_isBST vs
  exact ⟨(isBST_iff_pairwise _).mp hbst, nodup_inOrder hbst,
    mem_insertList vs, iterValues_eq hbst⟩

/-! ### Claim C8 -/

theorem le_getLast_of_pairwise :
    ∀ {l : List Int}, l.Pairwise (· < ·) → ∀ (h : l ≠ []) (y : Int),
      y ∈ l → y ≤ l.getLast h
  | [], _, h, _, _ => absurd rfl h
  | [a], _, _, y, hy => by
    have : y = a := by simpa using hy
    subst this
    simp [List.getLast]
  | a :: b :: rest, hp, _, y, hy => by
    rw [List.getLast_cons (by simp)]
    rcases List.mem_cons.mp hy with rfl | hy2
    · exact (List.rel_of_pairwise_cons hp (List.getLast_mem (by simp))).le
    · exact le_getLast_of_pairwise hp.of_cons (by simp) y hy2

/-- C8: on a non-empty tree (with its cached size consistent),
pre-decrementing the end iterator uses the iterator's back-reference to
the tree and lands on `find_max(root_)`, the maximum element of the
whole tree. -/
theorem C8_decrement_of_end_is_max (t : Tree) (sz : Nat)
    (hbst : IsBST t) (hsz : sz = (inOrder t).length) (hne : t ≠ Tree.nil) :
    ∃ m, decFromEnd t sz = some m ∧ m ∈ inOrder t ∧
      ∀ y ∈ inOrder t, y ≤ m := by
  have hlne : inOrder t ≠ [] := fun h => hne ((inOrder_eq_nil_iff t).mp h)
  have hszne : ¬ sz = 0 := by
    intro h0
    exact hlne (List.length_eq_zero.mp (by omega))
  refine ⟨(inOrder t).getLast hlne, ?_, List.getLast_mem hlne, ?_⟩
  · rw [decFromEnd, if_neg hszne, findMaxVal_eq_getLast,
      List.getLast?_eq_getLast _ hlne]
  · exact le_getLast_of_pairwise ((isBST_iff_pairwise t).mp hbst) hlne

theorem C8_witness :
    ∃ m, decFromEnd (insertList [10, 5, 15]) 3 = some m ∧
      m ∈ inOrder (insertList [10, 5, 15]) ∧
      ∀ y ∈ inOrder (insertList [10, 5, 15]), y ≤ m :=
  C8_decrement_of_end_is_max (insertList [10, 5, 15]) 3 (by decide) (by decide)
    (by decide)

/-! ### The traversal-pair builders (claim C7) -/

theorem length_preOrder : ∀ t : Tree, (preOrder t).length = sizeT t
  | .nil => rfl
  | .node l x r => by
    simp [preOrder, sizeT, length_preOrder l, length_preOrder r]
    omega

theorem length_postOrder : ∀ t : Tree, (postOrder t).length = sizeT t
  | .nil => rfl
  | .node l x r => by
    simp [postOrder, sizeT, length_postOrder l, length_postOrder r]
    omega

theorem getI_of_get? {l : List Int} {n : Nat} {a : Int}
    (h : l.get? n = some a) : getI l (n : Int) = a := by
  rw [getI, if_pos (Int.natCast_nonneg n), Int.toNat_natCast,
    List.getD_eq_get? l n 0, h]
  rfl

theorem get?_append_length : ∀ (u : List Int) (x : Int) (w : List Int),
    (u ++ x :: w).get? u.length = some x
  | [], x, w => rfl
  | a :: u, x, w => get?_append_length u x w

theorem inorderMap_not_mem :
    ∀ {l : List Int} {v : Int}, v ∉ l → inorderMap l v = none
  | [], v, _ => rfl
  | a :: rest, v, h => by
    rw [inorderMap,
      inorderMap_not_mem (fun hm => h (List.mem_cons_of_mem a hm))]
    exact if_neg (fun he => h (List.mem_cons.mpr (Or.inl he.symm)))

theorem inorderMap_idx :
    ∀ {l : List Int}, l.Nodup → ∀ {j : Nat} {v : Int},
      l.get? j = some v → inorderMap l v = some (j : Int)
  | [], _, j, v, h => by simp at h
  | a :: rest, hnd, 0, v, h => by
    have ha : a = v := by
      have : some a = some v := h
      exact Option.some.inj this
    subst ha
    rw [inorderMap, inorderMap_not_mem (List.nodup_cons.mp hnd).1, if_pos rfl]
    rfl
  | a :: rest, hnd, j + 1, v, h => by
    have h2 : rest.get? j = some v := h
    rw [inorderMap, inorderMap_idx (List.nodup_cons.mp hnd).2 h2]
    show some ((j : Int) + 1) = some ((j + 1 : Nat) : Int)
    push_cast
    rfl

theorem build_from_pre_in_exact :
    ∀ (t : Tree) (fuel : Nat) (pre rest A B fin : List Int) (pIdx : Nat)
      (preIdx inS inE : Int),
      sizeT t < fuel →
      pre.drop pIdx = preOrder t ++ rest →
      fin = A ++ inOrder t ++ B →
      fin.Nodup →
      preIdx = (pIdx : Int) →
      inS = (A.length : Int) →
      inE = (A.length : Int) + (sizeT t : Int) - 1 →
      build_from_pre_in pre (inorderMap fin) fuel preIdx inS inE =
        (t, preIdx + (sizeT t : Int))
  | .nil, fuel, pre, rest, A, B, fin, pIdx, preIdx, inS, inE, hfuel, hpre,
      hfin, hnd, hpi, hs, he => by
    cases fuel with
    | zero => exact absurd hfuel (by omega)
    | succ f =>
      rw [build_from_pre_in,
        if_pos (by rw [hs, he]; push_cast [sizeT]; omega)]
      simp [sizeT]
  | .node l x r, fuel, pre, rest, A, B, fin, pIdx, preIdx, inS, inE, hfuel,
      hpre, hfin, hnd, hpi, hs, he => by
    cases fuel with
    | zero => exact absurd hfuel (by omega)
    | succ f =>
      have hszeq : sizeT (Tree.node l x r) = sizeT l + 1 + sizeT r := rfl
      have hpre1 : pre.drop pIdx = x :: (preOrder l ++ (preOrder r ++ rest)) := by
        rw [hpre, preOrder, List.cons_append, List.append_assoc]
      have hget : pre.get? pIdx = some x := by
        have h0 : (pre.drop pIdx).get? 0 = some x := by rw [hpre1]; rfl
        rw [List.get?_drop] at h0
        simpa using h0
      have hrootval : getI pre preIdx = x := by
        rw [hpi]; exact getI_of_get? hget
      have hfin2 : fin = (A ++ inOrder l) ++ x :: (inOrder r ++ B) := by
        rw [hfin, inOrder]
        simp [List.append_assoc]
      have hgetx : fin.get? (A.length + (inOrder l).length) = some x := by
        rw [hfin2]
        have h1 := get?_append_length (A ++ inOrder l) x (inOrder r ++ B)
        simpa [List.length_append] using h1
      have hmapx : (inorderMap fin x).getD 0 =
          (A.length : Int) + (sizeT l : Int) := by
        rw [inorderMap_idx hnd hgetx]
        show ((A.length + (inOrder l).length : Nat) : Int) = _
        rw [length_inOrder]
        push_cast
        ring
      have hguard : ¬ inS > inE := by
        rw [hs, he, hszeq]; push_cast; omega
      have hdropl : pre.drop (pIdx + 1) = preOrder l ++ (preOrder r ++ rest) := by
        rw [← List.drop_drop, hpre1]
        rfl
      have hdropr : pre.drop (pIdx + 1 + sizeT l) = preOrder r ++ rest := by
        rw [← List.drop_drop, hdropl, ← length_preOrder l, List.drop_left]
      rw [build_from_pre_in, if_neg hguard]
      simp only [hrootval, hmapx]
      rw [build_from_pre_in_exact l f pre (preOrder r ++ rest) A
        (x :: (inOrder r ++ B)) fin (pIdx + 1) (preIdx + 1) inS
        ((A.length : Int) + (sizeT l : Int) - 1)
        (by omega) hdropl
        (by rw [hfin, inOrder]; simp [List.append_assoc])
        hnd
        (by rw [hpi]; push_cast; ring)
        hs rfl]
      dsimp only
      rw [build_from_pre_in_exact r f pre rest (A ++ inOrder l ++ [x]) B fin
        (pIdx + 1 + sizeT l) (preIdx + 1 + (sizeT l : Int))
        ((A.length : Int) + (sizeT l : Int) + 1) inE
        (by omega) hdropr
        (by rw [hfin, inOrder]; simp [List.append_assoc])
        hnd
        (by rw [hpi]; push_cast; ring)
        (by simp [List.length_append, length_inOrder]; push_cast; ring)
        (by
          rw [he, hszeq]
          simp only [List.length_append, length_inOrder, List.length_singleton]
          push_cast
          ring)]
      dsimp only
      have hfinal : preIdx + (sizeT (Tree.node l x r) : Int) =
          preIdx + 1 + (sizeT l : Int) + (sizeT r : Int) := by
        rw [hszeq]; push_cast; ring
      rw [hfinal]

theorem take_left_of_take {post w u : List Int} {n : Nat}
    (h : post.take n = w ++ u) : post.take w.length = w := by
  have hlen : (post.take n).length = w.length + u.length := by
    rw [h, List.length_append]
  have hwn : w.length ≤ n := by
    rw [List.length_take] at hlen
    omega
  calc post.take w.length = (post.take n).take w.length := by
        rw [List.take_take, min_eq_left hwn]
    _ = (w ++ u).take w.length := by rw [h]
    _ = w := List.take_left w u

theorem get?_of_take {post u : List Int} {x : Int} {n : Nat}
    (h : post.take n = u ++ [x]) : post.get? u.length = some x := by
  have hlen : (post.take n).length = u.length + 1 := by
    rw [h, List.length_append, List.length_singleton]
  have hwn : u.length < n := by
    rw [List.length_take] at hlen
    omega
  have h2 : (post.take n).get? u.length = some x := by
    rw [h]
    have := get?_append_length u x []
    simpa using this
  rwa [List.get?_take hwn] at h2

theorem build_from_post_in_exact :
    ∀ (t : Tree) (fuel : Nat) (post rest A B fin : List Int) (pIdx : Nat)
      (postIdx inS inE : Int),
      sizeT t < fuel →
      post.take pIdx = rest ++ postOrder t →
      pIdx = rest.length + sizeT t →
      fin = A ++ inOrder t ++ B →
      fin.Nodup →
      postIdx = (pIdx : Int) - 1 →
      inS = (A.length : Int) →
      inE = (A.length : Int) + (sizeT t : Int) - 1 →
      build_from_post_in post (inorderMap fin) fuel postIdx inS inE =
        (t, postIdx - (sizeT t : Int))
  | .nil, fuel, post, rest, A, B, fin, pIdx, postIdx, inS, inE, hfuel, hpost,
      hpidx, hfin, hnd, hpo, hs, he => by
    cases fuel with
    | zero => exact absurd hfuel (by omega)
    | succ f =>
      rw [build_from_post_in,
        if_pos (by rw [hs, he]; push_cast [sizeT]; omega)]
      simp [sizeT]
  | .node l x r, fuel, post, rest, A, B, fin, pIdx, postIdx, inS, inE, hfuel,
      hpost, hpidx, hfin, hnd, hpo, hs, he => by
    cases fuel with
    | zero => exact absurd hfuel (by omega)
    | succ f =>
      have hszeq : sizeT (Tree.node l x r) = sizeT l + 1 + sizeT r := rfl
      have hpost1 : post.take pIdx =
          (rest ++ (postOrder l ++ postOrder r)) ++ [x] := by
        rw [hpost, postOrder]
        simp [List.append_assoc]
      have hulen : (rest ++ (postOrder l ++ postOrder r)).length =
          pIdx - 1 := by
        simp [List.length_append, length_postOrder]
        omega
      have hget : post.get? (pIdx - 1) = some x := by
        rw [← hulen]
        exact get?_of_take hpost1
      have hponat : postIdx = ((pIdx - 1 : Nat) : Int) := by
        rw [hpo]
        have h1 : 1 ≤ pIdx := by rw [hpidx, hszeq]; omega
        push_cast [h1]
        ring
      have hrootval : getI post postIdx = x := by
        rw [hponat]; exact getI_of_get? hget
      have hfin2 : fin = (A ++ inOrder l) ++ x :: (inOrder r ++ B) := by
        rw [hfin, inOrder]
        simp [List.append_assoc]
      have hgetx : fin.get? (A.length + (inOrder l).length) = some x := by
        rw [hfin2]
        have h1 := get?_append_length (A ++ inOrder l) x (inOrder r ++ B)
        simpa [List.length_append] using h1
      have hmapx : (inorderMap fin x).getD 0 =
          (A.length : Int) + (sizeT l : Int) := by
        rw [inorderMap_idx hnd hgetx]
        show ((A.length + (inOrder l).length : Nat) : Int) = _
        rw [length_inOrder]
        push_cast
        ring
      have hguard : ¬ inS > inE := by
        rw [hs, he, hszeq]; push_cast; omega
      have htaker : post.take (pIdx - 1) =
          (rest ++ postOrder l) ++ postOrder r := by
        have h1 := take_left_of_take
          (by rw [hpost1, List.append_assoc] :
            post.take pIdx =
              (rest ++ (postOrder l ++ postOrder r)) ++ [x])
        rw [hulen] at h1
        rw [h1, List.append_assoc]
      have htakel : post.take (pIdx - 1 - sizeT r) = rest ++ postOrder l := by
        have h1 := take_left_of_take htaker
        have h2 : pIdx - 1 - sizeT r = (rest ++ postOrder l).length := by
          simp [List.length_append, length_postOrder]
          rw [hpidx, hszeq]
          omega
        rwa [← h2] at h1
      rw [build_from_post_in, if_neg hguard]
      simp only [hrootval, hmapx]
      rw [build_from_post_in_exact r f post (rest ++ postOrder l)
        (A ++ inOrder l ++ [x]) B fin (pIdx - 1) (postIdx - 1)
        ((A.length : Int) + (sizeT l : Int) + 1) inE
        (by omega) htaker
        (by simp [List.length_append, length_postOrder]; rw [hpidx, hszeq]; omega)
        (by rw [hfin, inOrder]; simp [List.append_assoc])
        hnd
        (by rw [hponat])
        (by simp [List.length_append, length_inOrder]; push_cast; ring)
        (by
          rw [he, hszeq]
          simp only [List.length_append, length_inOrder, List.length_singleton]
          push_cast
          ring)]
      dsimp only
      rw [build_from_post_in_exact l f post rest A (x :: (inOrder r ++ B)) fin
        (pIdx - 1 - sizeT r) (postIdx - 1 - (sizeT r : Int)) inS
        ((A.length : Int) + (sizeT l : Int) - 1)
        (by omega) htakel
        (by omega)
        (by rw [hfin, inOrder]; simp [List.append_assoc])
        hnd
        (by
          have h1 : 1 + sizeT r ≤ pIdx := by rw [hpidx, hszeq]; omega
          rw [hpo]
          push_cast [h1]
          omega)
        hs rfl]
      dsimp only
      have hfinal : postIdx - (sizeT (Tree.node l x r) : Int) =
          postIdx - 1 - (sizeT r : Int) - (sizeT l : Int) := by
        rw [hszeq]; push_cast; ring
      rw [hfinal]

theorem mkFromPreIn_exact (t : Tree) (hnd : (inOrder t).Nodup) :
    (mkFromPreIn (preOrder t) (inOrder t)).1 = t := by
  cases t with
  | nil => rfl
  | node l x r =>
    rw [mkFromPreIn, if_neg (by
      simp [preOrder, length_preOrder, length_inOrder, sizeT]
      try omega)]
    rw [build_from_pre_in_exact (Tree.node l x r)
      ((preOrder (Tree.node l x r)).length + 1)
      (preOrder (Tree.node l x r)) [] [] [] (inOrder (Tree.node l x r)) 0
      0 0 (((inOrder (Tree.node l x r)).length : Int) - 1)
      (by rw [length_preOrder]; omega)
      (by simp)
      (by simp)
      hnd
      (by simp)
      (by simp)
      (by push_cast [length_inOrder, List.length_nil]; ring)]

theorem mkFromInPost_exact (t : Tree) (hnd : (inOrder t).Nodup) :
    (mkFromInPost (inOrder t) (postOrder t)).1 = t := by
  cases t with
  | nil => rfl
  | node l x r =>
    rw [mkFromInPost, if_neg (by
      simp [List.isEmpty_iff, postOrder, length_postOrder, length_inOrder,
        sizeT]
      try omega)]
    rw [build_from_post_in_exact (Tree.node l x r)
      ((postOrder (Tree.node l x r)).length + 1)
      (postOrder (Tree.node l x r)) [] [] [] (inOrder (Tree.node l x r))
      (postOrder (Tree.node l x r)).length
      (((postOrder (Tree.node l x r)).length : Int) - 1)
      0 (((inOrder (Tree.node l x r)).length : Int) - 1)
      (by rw [length_postOrder]; omega)
      (by simp)
      (by rw [length_postOrder]; simp)
      (by simp)
      hnd
      rfl
      (by simp)
      (by push_cast [length_inOrder, List.length_nil]; ring)]

/-! ### Claim C7 -/

/-- C7: round-trip through the traversal-pair constructors.  For every
tree with pairwise-distinct elements (as every tree this container
builds has), constructing from its `(preorder, inorder)` pair
reproduces the tree itself — hence its post-order sequence — and
constructing from its `(inorder, postorder)` pair reproduces its
pre-order sequence. -/
theorem C7_builder_round_trip (t : Tree) (hnd : (inOrder t).Nodup) :
    postOrder (mkFromPreIn (preOrder t) (inOrder t)).1 = postOrder t ∧
      preOrder (mkFromInPost (inOrder t) (postOrder t)).1 = preOrder t ∧
      (mkFromPreIn (preOrder t) (inOrder t)).1 = t ∧
      (mkFromInPost (inOrder t) (postOrder t)).1 = t := by
  rw [mkFromPreIn_exact t hnd, mkFromInPost_exact t hnd]
  exact ⟨rfl, rfl, rfl, rfl⟩

theorem C7_witness :
    (inOrder (insertList [10, 5, 15, 3, 7, 12, 18])).Nodup ∧
      postOrder (mkFromPreIn (preOrder (insertList [10, 5, 15, 3, 7, 12, 18]))
          (inOrder (insertList [10, 5, 15, 3, 7, 12, 18]))).1 =
        postOrder (insertList [10, 5, 15, 3, 7, 12, 18]) ∧
      preOrder (mkFromInPost (inOrder (insertList [10, 5, 15, 3, 7, 12, 18]))
          (postOrder (insertList [10, 5, 15, 3, 7, 12, 18]))).1 =
        preOrder (insertList [10, 5, 15, 3, 7, 12, 18]) := by
  have h := C7_builder_round_trip (insertList [10, 5, 15, 3, 7, 12, 18])
    (by decide)
  exact ⟨by decide, h.1, h.2.1⟩

end BST
